import Mathlib

/-!
Shallow embedding of the queue coordination layer of `src/src/queue.rs`
(the `floki` message queue).

Conventions of the embedding:
* `u32` / `u64` values are modelled as `Nat`; none of the verified claims
  depends on wrap-around behaviour, so no `% 2^w` reduction is applied.
* The `LinkedHashMap<u64, InFlightState>` is modelled as an association
  list in insertion order: the head is the oldest (front) entry, the last
  element is the newest (back) entry.
* The `BinaryHeap<Rev<u64>>` is modelled as a plain `List Nat` with
  multiset semantics: `peek` is the minimum (`minOfList`), `push` is
  `cons`, `pop` removes one occurrence of the minimum.
* The `HashMap<String, Mutex<Channel>>` channel table is modelled as an
  association list with unique keys; locking is immaterial in the
  sequential model.
* The external segment backend (`queue_backend.rs`, out of scope per the
  spec) is modelled by `QueueBackend`, a minimal instance of the contract
  in spec section 6.1: `tailId` is the next id to assign (ids are dense
  from 1), `get id` serves exactly the ids `1 ≤ id < tailId`, `gc` records
  its argument in `gcLog`, `purge` resets ids to start again at 1.
* The checkpoint file on disk is modelled by the field `disk`; a missing
  or corrupt file is `none`.  Checkpoint I/O errors (logged and ignored by
  the source) are not modelled: `checkpoint` always succeeds.
* Code paths that abort the process (the `set_state` diagnostics and the
  `backend.get(id).unwrap()` in the redelivery path of `get`) are modelled
  by an outer `Option`: `none` is an abort, `some` a normal return.
-/

deriving instance DecidableEq for Except

namespace Floki

/-- QueueState from `queue.rs` lines 19-24. -/
inductive QueueState where
  | Ready
  | Purging
  | Deleting
deriving DecidableEq

/-- ChannelCheckpoint from `queue.rs` lines 32-36. -/
structure ChannelCheckpoint where
  last_touched : Nat
  tail : Nat
deriving DecidableEq

/-- QueueCheckpoint from `queue.rs` lines 38-42; the `BTreeMap` is an
association list (key order is immaterial, the map is only ever consumed
key-wise). -/
structure QueueCheckpoint where
  state : QueueState
  channels : List (String × ChannelCheckpoint)
deriving DecidableEq

/-- InFlightState from `queue.rs` lines 44-48. -/
structure InFlightState where
  expiration : Nat
  retry : Nat
deriving DecidableEq

/-- Channel from `queue.rs` lines 50-56. -/
structure Channel where
  last_touched : Nat
  tail : Nat
  in_flight : List (Nat × InFlightState)
  in_flight_heap : List Nat
deriving DecidableEq

/-- Message handed out by the backend; the coordination layer only ever
inspects `id()`, so the payload is not carried. -/
structure Message where
  id : Nat
deriving DecidableEq

/-- Minimal model of the external `QueueBackend` (spec section 6.1):
`tailId` is the next id to assign, `gcLog` records the arguments of every
`gc` call (most recent first). -/
structure QueueBackend where
  tailId : Nat
  gcLog : List Nat
deriving DecidableEq

/-- Queue from `queue.rs` lines 58-70.  The locks are immaterial in the
sequential model; `config` is reduced to `time_to_live`, the only
configuration field the verified operations read; `disk` models the
checkpoint file. -/
structure Queue where
  time_to_live : Nat
  backend : QueueBackend
  channels : List (String × Channel)
  clock : Nat
  state : QueueState
  disk : Option QueueCheckpoint
deriving DecidableEq

/-- Minimum of a list of naturals, `none` on the empty list.  This is both
the `BinaryHeap<Rev<u64>>.peek()` of the heap model and the `.min()` of
`maintenance`. -/
def minOfList : List Nat → Option Nat
  | [] => none
  | x :: rest =>
    match minOfList rest with
    | none => some x
    | some m => some (min x m)

/-- Channel::real_tail, `queue.rs` lines 73-79: the heap peek when the heap
is non-empty, otherwise the channel tail. -/
def Channel.real_tail (c : Channel) : Nat :=
  match minOfList c.in_flight_heap with
  | some tail => tail
  | none => c.tail

/-- Lookup in the channel table (`HashMap::get`). -/
def chLookup : List (String × Channel) → String → Option Channel
  | [], _ => none
  | p :: rest, name => if p.1 = name then some p.2 else chLookup rest name

/-- In-place mutation of the channel stored under `name` (the source
mutates the channel behind the table's shared reference). -/
def chUpdate : List (String × Channel) → String → Channel → List (String × Channel)
  | [], _, _ => []
  | p :: rest, name, c => if p.1 = name then (name, c) :: rest else p :: chUpdate rest name c

/-- `HashMap::insert`: replace the binding if the key is present, append
otherwise. -/
def chInsert : List (String × Channel) → String → Channel → List (String × Channel)
  | [], name, c => [(name, c)]
  | p :: rest, name, c => if p.1 = name then (name, c) :: rest else p :: chInsert rest name c

/-- `LinkedHashMap::contains_key`. -/
def lhmContains : List (Nat × InFlightState) → Nat → Bool
  | [], _ => false
  | p :: rest, id => if p.1 = id then true else lhmContains rest id

/-- `LinkedHashMap::remove`: drop the (unique) entry with the given key. -/
def lhmRemove : List (Nat × InFlightState) → Nat → List (Nat × InFlightState)
  | [], _ => []
  | p :: rest, id => if p.1 = id then rest else p :: lhmRemove rest id

/-- Remove one occurrence of a value from the heap model
(`BinaryHeap::pop` pops the minimum; the caller passes the minimum). -/
def heapErase : List Nat → Nat → List Nat
  | [], _ => []
  | x :: rest, m => if x = m then rest else x :: heapErase rest m

/-- QueueBackend::tail (spec 6.1): the next id to assign. -/
def QueueBackend.tail (b : QueueBackend) : Nat := b.tailId

/-- QueueBackend::get (spec 6.1): random read by id; ids `1 ≤ id < tailId`
are present. -/
def QueueBackend.get (b : QueueBackend) (id : Nat) : Option Message :=
  if 1 ≤ id ∧ id < b.tailId then some { id := id } else none

/-- QueueBackend::push (spec 6.1): append, returning the newly assigned
id.  The clock stamp and payload do not influence the coordination
layer. -/
def QueueBackend.push (b : QueueBackend) (_clock : Nat) (_message : List Nat) :
    QueueBackend × Option Nat :=
  ({ b with tailId := b.tailId + 1 }, some b.tailId)

/-- QueueBackend::gc (spec 6.1): the backend may retire segments below the
argument; the model records the argument. -/
def QueueBackend.gc (b : QueueBackend) (smallest : Nat) : QueueBackend :=
  { b with gcLog := smallest :: b.gcLog }

/-- QueueBackend::purge (spec 6.1): drop all segments, ids restart at 1. -/
def QueueBackend.purge (b : QueueBackend) : QueueBackend :=
  { b with tailId := 1 }

/-- QueueBackend::delete (spec 6.1): drop all segments and files. -/
def QueueBackend.delete (b : QueueBackend) : QueueBackend :=
  { b with tailId := 1 }

/-- Queue::set_state, `queue.rs` lines 119-132.  `none` models the
aborting diagnostic; note the early `return` when the requested state
equals the current one. -/
def set_state (state new_state : QueueState) : Option QueueState :=
  if state = new_state then some state
  else
    match state with
    | QueueState.Deleting => none
    | QueueState.Purging =>
      match new_state with
      | QueueState.Ready => some new_state
      | _ => none
    | QueueState.Ready => some new_state

/-- Queue::create_channel, `queue.rs` lines 134-152. -/
def Queue.create_channel (q : Queue) (name : String) : Queue × Bool :=
  match chLookup q.channels name with
  | some _ => (q, false)
  | none =>
    ({ q with channels := q.channels ++
        [(name, { last_touched := q.clock, tail := q.backend.tail,
                  in_flight := [], in_flight_heap := [] })] },
      true)

/-- Fresh-path tail of Queue::get, `queue.rs` lines 180-193, acting on the
channel `c0` (which already carries the refreshed `last_touched`). -/
def Queue.getFresh (q : Queue) (name : String) (c0 : Channel) :
    Queue × Option (Except Nat Message) :=
  match q.backend.get c0.tail with
  | some m =>
    let c1 := { c0 with
      in_flight := c0.in_flight ++
        [(m.id, { expiration := q.clock + q.time_to_live, retry := 0 })],
      in_flight_heap := m.id :: c0.in_flight_heap,
      tail := c0.tail + 1 }
    ({ q with channels := chUpdate q.channels name c1 }, some (Except.ok m))
  | none =>
    ({ q with channels := chUpdate q.channels name c0 }, some (Except.error c0.tail))

/-- Queue::get, `queue.rs` lines 160-196.  The outer `Option` models the
abort of `backend.get(id).unwrap()` on the redelivery path; the inner
`Option` is the source's `Option` (`none` = no such channel); `Except` is
the source's `Result` (`Except.error pos` = no message available). -/
def Queue.get (q : Queue) (name : String) : Option (Queue × Option (Except Nat Message)) :=
  match chLookup q.channels name with
  | none => some (q, none)
  | some c =>
    match c.in_flight with
    | (id, st) :: _ =>
      if st.expiration ≤ q.clock then
        match q.backend.get id with
        | some m =>
          let c1 := { c with
            last_touched := q.clock,
            in_flight := lhmRemove c.in_flight id ++
              [(id, { expiration := q.clock + q.time_to_live, retry := st.retry + 1 })] }
          some ({ q with channels := chUpdate q.channels name c1 }, some (Except.ok m))
        | none => none
      else some (q.getFresh name { c with last_touched := q.clock })
    | [] => some (q.getFresh name { c with last_touched := q.clock })

/-- Queue::push, `queue.rs` lines 199-203. -/
def Queue.push (q : Queue) (message : List Nat) : Queue × Option Nat :=
  match q.backend.push q.clock message with
  | (b, r) => ({ q with backend := b }, r)

/-- Fuel-driven form of the heap-compaction loop of Queue::ack,
`queue.rs` lines 216-220: while the heap minimum is not a key of
`in_flight`, pop it.  The fuel is the heap length, which the loop can
never exhaust early (each pop removes one element). -/
def compactHeapAux (inf : List (Nat × InFlightState)) : Nat → List Nat → List Nat
  | 0, h => h
  | fuel + 1, h =>
    match minOfList h with
    | none => h
    | some m => if lhmContains inf m then h else compactHeapAux inf fuel (heapErase h m)

/-- Heap-compaction loop of Queue::ack, `queue.rs` lines 216-220. -/
def compactHeap (inf : List (Nat × InFlightState)) (h : List Nat) : List Nat :=
  compactHeapAux inf h.length h

/-- Queue::ack, `queue.rs` lines 206-224. -/
def Queue.ack (q : Queue) (name : String) (id : Nat) : Queue × Option Bool :=
  match chLookup q.channels name with
  | none => (q, none)
  | some c =>
    let c1 := { c with
      last_touched := q.clock,
      in_flight := lhmRemove c.in_flight id,
      in_flight_heap := compactHeap (lhmRemove c.in_flight id) c.in_flight_heap }
    ({ q with channels := chUpdate q.channels name c1 }, some (lhmContains c.in_flight id))

/-- Checkpoint record assembled by Queue::checkpoint, `queue.rs` lines
303-322: in `Ready` state every channel is persisted with its
`real_tail`; in any other state the channel map is left empty. -/
def Queue.checkpointData (q : Queue) : QueueCheckpoint :=
  { state := q.state,
    channels :=
      if q.state = QueueState.Ready then
        q.channels.map (fun p =>
          (p.1, { last_touched := p.2.last_touched, tail := p.2.real_tail }))
      else [] }

/-- Queue::checkpoint, `queue.rs` lines 303-340: atomically replace the
checkpoint file.  The `full` flag only governs the backend fsync and has
no observable effect in the model. -/
def Queue.checkpoint (q : Queue) (_full : Bool) : Queue :=
  { q with disk := some q.checkpointData }

/-- Channel reinstated by Queue::recover, `queue.rs` lines 282-291: the
persisted `last_touched` and `tail` with empty in-flight structures. -/
def channelOfCheckpoint (cc : ChannelCheckpoint) : Channel :=
  { last_touched := cc.last_touched, tail := cc.tail,
    in_flight := [], in_flight_heap := [] }

/-- Queue::recover, `queue.rs` lines 252-301: a missing or malformed
checkpoint leaves the queue untouched; otherwise the persisted state is
adopted and, in `Ready` state, every persisted channel is inserted; the
`Purging`/`Deleting` branches are TODO in the source and do nothing. -/
def Queue.recover (q : Queue) : Queue :=
  match q.disk with
  | none => q
  | some cp =>
    match cp.state with
    | QueueState.Ready =>
      { q with
          state := cp.state,
          channels := cp.channels.foldl
            (fun acc p => chInsert acc p.1 (channelOfCheckpoint p.2)) q.channels }
    | QueueState.Purging => { q with state := cp.state }
    | QueueState.Deleting => { q with state := cp.state }

/-- Queue::purge, `queue.rs` lines 226-240.  Note that the per-channel
loop (lines 233-237) resets `tail` and clears `in_flight` but does not
touch `in_flight_heap`. -/
def Queue.purge (q : Queue) : Option Queue :=
  match set_state q.state QueueState.Purging with
  | none => none
  | some s1 =>
    let q1 := Queue.checkpoint { q with state := s1 } false
    let q2 := { q1 with backend := q1.backend.purge }
    let chs := q2.channels.map (fun p => (p.1, { p.2 with tail := 1, in_flight := [] }))
    let q3 := { q2 with channels := chs }
    match set_state q3.state QueueState.Ready with
    | none => none
    | some s2 => some (Queue.checkpoint { q3 with state := s2 } false)

/-- Queue::delete, `queue.rs` lines 242-250 (directory removal is not
observable in the model). -/
def Queue.delete (q : Queue) : Option Queue :=
  match set_state q.state QueueState.Deleting with
  | none => none
  | some s1 =>
    let q1 := Queue.checkpoint { q with state := s1 } false
    some { q1 with backend := q1.backend.delete }

/-- Queue::maintenance, `queue.rs` lines 342-360: the smallest live cursor
over all channels (heap peek when non-empty, else the tail), defaulting to
0 with no channels, is passed to `backend.gc`, then a checkpoint is
written. -/
def Queue.maintenance (q : Queue) : Queue :=
  let smallest_tail := (minOfList (q.channels.map (fun p =>
      match minOfList p.2.in_flight_heap with
      | some tail => tail
      | none => p.2.tail))).getD 0
  Queue.checkpoint { q with backend := q.backend.gc smallest_tail } false

/-- Reopening a queue from disk: Queue::new with `recover = true`
(`queue.rs` lines 90-113) builds a fresh queue (empty channel table,
clock 0, `Ready`) around the recovered backend `b` and then runs
Queue::recover on the persisted checkpoint file. -/
def Queue.reopen (q : Queue) (b : QueueBackend) : Queue :=
  Queue.recover
    { time_to_live := q.time_to_live, backend := b, channels := [], clock := 0,
      state := QueueState.Ready, disk := q.disk }

/-- Shape of a channel after a checkpoint/recover round trip: the
persisted `last_touched`, a `tail` equal to the pre-checkpoint
`real_tail`, and empty in-flight structures. -/
def recoveredChannel (c : Channel) : Channel :=
  { last_touched := c.last_touched, tail := c.real_tail,
    in_flight := [], in_flight_heap := [] }

/-- Channel well-formedness along the get/ack protocol: the in-flight
keys are pairwise distinct and every in-flight key is below the cursor
(spec section 3, invariant 1). -/
def chanInv (c : Channel) : Prop :=
  (c.in_flight.map (fun p => p.1)).Nodup ∧ ∀ p ∈ c.in_flight, p.1 < c.tail

instance (c : Channel) : Decidable (chanInv c) := by
  unfold chanInv; infer_instance

/-- Repeated `get` calls on one channel.  Each element of `clocks` is the
latched clock at the time of the call (`tick` between calls is modelled by
replacing the clock field); each list element records one call's outcome
(`none` = the call aborted, which also ends the run). -/
def runGets (name : String) : Queue → List Nat → List (Option (Option (Except Nat Message)))
  | _, [] => []
  | q, t :: ts =>
    match Queue.get { q with clock := t } name with
    | none => [none]
    | some (q', r) => some r :: runGets name q' ts

/-! ### Concrete states used to exercise `purge`

`purgeInputC1` is reachable from a fresh queue: create channel `"c"`,
push twice (ids 1 and 2), `get` twice (leases 1 and 2), `ack` 1 (the heap
compaction pops 1 and stops at 2).  At that point `in_flight = [(2, _)]`,
`in_flight_heap = [2]`, `tail = 3`.  `purgeInputC2` is the same state
under channel name `"d"`. -/

def purgeInputC1 : Queue :=
  { time_to_live := 10, backend := { tailId := 3, gcLog := [] },
    channels := [("c",
      { last_touched := 2, tail := 3,
        in_flight := [(2, { expiration := 12, retry := 0 })],
        in_flight_heap := [2] })],
    clock := 2, state := QueueState.Ready, disk := none }

def purgeInputC2 : Queue :=
  { time_to_live := 10, backend := { tailId := 3, gcLog := [] },
    channels := [("d",
      { last_touched := 2, tail := 3,
        in_flight := [(2, { expiration := 12, retry := 0 })],
        in_flight_heap := [2] })],
    clock := 2, state := QueueState.Ready, disk := none }

/-! ### Concrete states used as witnesses -/

def c3q : Queue :=
  { time_to_live := 3, backend := { tailId := 5, gcLog := [] },
    channels := [("r",
      { last_touched := 7, tail := 4,
        in_flight := [(2, { expiration := 9, retry := 0 })],
        in_flight_heap := [2, 3] })],
    clock := 7, state := QueueState.Ready, disk := none }

def c5q : Queue :=
  { time_to_live := 7, backend := { tailId := 6, gcLog := [] },
    channels := [("a",
      { last_touched := 3, tail := 6,
        in_flight := [(4, { expiration := 9, retry := 1 }), (5, { expiration := 20, retry := 0 })],
        in_flight_heap := [4, 5] })],
    clock := 10, state := QueueState.Ready, disk := none }

def c6q : Queue :=
  { time_to_live := 5, backend := { tailId := 3, gcLog := [] },
    channels := [("y",
      { last_touched := 0, tail := 3, in_flight := [], in_flight_heap := [] })],
    clock := 1, state := QueueState.Ready, disk := none }

def c7q : Queue :=
  { time_to_live := 1, backend := { tailId := 4, gcLog := [] },
    channels := [("k",
      { last_touched := 0, tail := 4,
        in_flight := [(3, { expiration := 5, retry := 0 })],
        in_flight_heap := [3] })],
    clock := 9, state := QueueState.Ready, disk := none }

/-- State of `c7q` right after `ack "k" 3` (computed by the model). -/
def c7q1 : Queue :=
  { time_to_live := 1, backend := { tailId := 4, gcLog := [] },
    channels := [("k",
      { last_touched := 9, tail := 4, in_flight := [], in_flight_heap := [] })],
    clock := 9, state := QueueState.Ready, disk := none }

def c8q : Queue :=
  { time_to_live := 10, backend := { tailId := 4, gcLog := [] },
    channels := [("ch",
      { last_touched := 0, tail := 3,
        in_flight := [(1, { expiration := 2, retry := 0 })],
        in_flight_heap := [1] })],
    clock := 5, state := QueueState.Ready, disk := none }

/-- State of `c8q` right after the `get` that redelivers id 1 (computed by
the model). -/
def c8q1 : Queue :=
  { time_to_live := 10, backend := { tailId := 4, gcLog := [] },
    channels := [("ch",
      { last_touched := 5, tail := 3,
        in_flight := [(1, { expiration := 15, retry := 1 })],
        in_flight_heap := [1] })],
    clock := 5, state := QueueState.Ready, disk := none }

def c9q : Queue :=
  { time_to_live := 0, backend := { tailId := 5, gcLog := [] },
    channels := [("m",
      { last_touched := 0, tail := 4, in_flight := [], in_flight_heap := [2, 3] })],
    clock := 0, state := QueueState.Ready, disk := none }

/-! ### General lemmas about the container models -/

theorem minOfList_eq_none {l : List Nat} : minOfList l = none ↔ l = [] := by
  cases l with
  | nil => simp [minOfList]
  | cons x rest =>
    simp only [minOfList]
    cases h : minOfList rest <;> simp

theorem minOfList_mem {l : List Nat} {m : Nat} (h : minOfList l = some m) : m ∈ l := by
  induction l generalizing m with
  | nil => simp [minOfList] at h
  | cons x rest ih =>
    simp only [minOfList] at h
    cases h' : minOfList rest with
    | none =>
      rw [h'] at h
      cases h
      exact List.mem_cons_self _ _
    | some k =>
      rw [h'] at h
      cases h
      rcases Nat.le_total x k with hxk | hkx
      · rw [Nat.min_eq_left hxk]
        exact List.mem_cons_self _ _
      · rw [Nat.min_eq_right hkx]
        exact List.mem_cons_of_mem _ (ih h')

theorem minOfList_le {l : List Nat} {m : Nat} (h : minOfList l = some m) :
    ∀ x ∈ l, m ≤ x := by
  induction l generalizing m with
  | nil => simp [minOfList] at h
  | cons x rest ih =>
    simp only [minOfList] at h
    intro y hy
    cases h' : minOfList rest with
    | none =>
      rw [h'] at h
      cases h
      rcases List.mem_cons.mp hy with rfl | hy'
      · exact Nat.le_refl _
      · rw [minOfList_eq_none] at h'
        subst h'
        cases hy'
    | some k =>
      rw [h'] at h
      cases h
      rcases List.mem_cons.mp hy with rfl | hy'
      · exact Nat.min_le_left _ _
      · exact Nat.le_trans (Nat.min_le_right _ _) (ih h' y hy')

theorem heapErase_length {l : List Nat} {m : Nat} (h : m ∈ l) :
    (heapErase l m).length + 1 = l.length := by
  induction l with
  | nil => cases h
  | cons x rest ih =>
    by_cases hx : x = m
    · simp [heapErase, hx]
    · rcases List.mem_cons.mp h with rfl | h'
      · exact absurd rfl hx
      · simp only [heapErase, if_neg hx, List.length_cons]
        rw [← ih h']

theorem lhmContains_iff {l : List (Nat × InFlightState)} {id : Nat} :
    lhmContains l id = true ↔ id ∈ l.map (fun p => p.1) := by
  induction l with
  | nil => simp [lhmContains]
  | cons p rest ih =>
    by_cases hp : p.1 = id
    · simp [lhmContains, hp]
    · simp [lhmContains, hp, ih, Ne.symm hp]

theorem lhmRemove_of_not_contains {l : List (Nat × InFlightState)} {id : Nat}
    (h : lhmContains l id = false) : lhmRemove l id = l := by
  induction l with
  | nil => rfl
  | cons p rest ih =>
    by_cases hp : p.1 = id
    · simp [lhmContains, hp] at h
    · simp only [lhmContains, if_neg hp] at h
      simp [lhmRemove, hp, ih h]

theorem lhmContains_remove_self {l : List (Nat × InFlightState)} {id : Nat}
    (h : (l.map (fun p => p.1)).Nodup) : lhmContains (lhmRemove l id) id = false := by
  induction l with
  | nil => rfl
  | cons p rest ih =>
    simp only [List.map_cons, List.nodup_cons] at h
    by_cases hp : p.1 = id
    · simp only [lhmRemove, if_pos hp]
      rw [Bool.eq_false_iff]
      intro hcon
      exact h.1 (hp ▸ lhmContains_iff.mp hcon)
    · simp [lhmRemove, if_neg hp, lhmContains, hp, ih h.2]

theorem chLookup_chUpdate_self {l : List (String × Channel)} {n : String} {c c' : Channel}
    (h : chLookup l n = some c) : chLookup (chUpdate l n c') n = some c' := by
  induction l with
  | nil => cases h
  | cons p rest ih =>
    by_cases hp : p.1 = n
    · simp [chUpdate, chLookup, hp]
    · simp only [chLookup, if_neg hp] at h
      simp [chUpdate, chLookup, hp, ih h]

theorem chUpdate_eq_self {l : List (String × Channel)} {n : String} {c : Channel}
    (h : chLookup l n = some c) : chUpdate l n c = l := by
  induction l with
  | nil => cases h
  | cons p rest ih =>
    obtain ⟨p1, p2⟩ := p
    by_cases hp : p1 = n
    · simp only [chLookup, if_pos hp] at h
      cases h
      subst hp
      simp [chUpdate]
    · simp only [chLookup, if_neg hp] at h
      simp [chUpdate, if_neg hp, ih h]

theorem compactHeapAux_post (inf : List (Nat × InFlightState)) :
    ∀ (fuel : Nat) (h : List Nat), h.length ≤ fuel →
      minOfList (compactHeapAux inf fuel h) = none ∨
      ∃ m, minOfList (compactHeapAux inf fuel h) = some m ∧ lhmContains inf m = true := by
  intro fuel
  induction fuel with
  | zero =>
    intro h hlen
    left
    have : h = [] := List.length_eq_zero.mp (Nat.le_zero.mp hlen)
    subst this
    rfl
  | succ fuel ih =>
    intro h hlen
    cases hm : minOfList h with
    | none =>
      left
      simp [compactHeapAux, hm]
    | some m =>
      by_cases hc : lhmContains inf m
      · right
        exact ⟨m, by simp [compactHeapAux, hm, hc], hc⟩
      · have hlen' : (heapErase h m).length ≤ fuel := by
          have := heapErase_length (minOfList_mem hm)
          omega
        have := ih (heapErase h m) hlen'
        simpa [compactHeapAux, hm, hc] using this

theorem compactHeap_eq_self {inf : List (Nat × InFlightState)} {h : List Nat}
    (hp : minOfList h = none ∨ ∃ m, minOfList h = some m ∧ lhmContains inf m = true) :
    compactHeap inf h = h := by
  cases h with
  | nil => rfl
  | cons x rest =>
    rcases hp with hnone | ⟨m, hm, hc⟩
    · rw [minOfList_eq_none] at hnone
      cases hnone
    · show compactHeapAux inf (rest.length + 1) (x :: rest) = x :: rest
      simp [compactHeapAux, hm, hc]

theorem compactHeap_idem (inf : List (Nat × InFlightState)) (h : List Nat) :
    compactHeap inf (compactHeap inf h) = compactHeap inf h :=
  compactHeap_eq_self (compactHeapAux_post inf h.length h (Nat.le_refl _))

theorem chInsert_of_forall_ne {l : List (String × Channel)} {n : String} (c : Channel)
    (h : ∀ a ∈ l, a.1 ≠ n) : chInsert l n c = l ++ [(n, c)] := by
  induction l with
  | nil => rfl
  | cons p rest ih =>
    have hp : p.1 ≠ n := h p (List.mem_cons_self _ _)
    simp only [chInsert, if_neg hp, List.cons_append, List.cons.injEq, true_and]
    exact ih (fun a ha => h a (List.mem_cons_of_mem _ ha))

theorem foldl_chInsert_of_nodup (f : ChannelCheckpoint → Channel) :
    ∀ (l : List (String × ChannelCheckpoint)) (acc : List (String × Channel)),
      (l.map (fun p => p.1)).Nodup →
      (∀ p ∈ l, ∀ a ∈ acc, a.1 ≠ p.1) →
      l.foldl (fun acc p => chInsert acc p.1 (f p.2)) acc
        = acc ++ l.map (fun p => (p.1, f p.2)) := by
  intro l
  induction l with
  | nil => intro acc _ _; simp
  | cons p rest ih =>
    intro acc hnd hdisj
    simp only [List.map_cons, List.nodup_cons] at hnd
    simp only [List.foldl_cons]
    rw [chInsert_of_forall_ne (f p.2) (fun a ha => hdisj p (List.mem_cons_self _ _) a ha)]
    rw [ih (acc ++ [(p.1, f p.2)]) hnd.2]
    · simp
    · intro r hr a ha
      rcases List.mem_append.mp ha with ha' | ha'
      · exact hdisj r (List.mem_cons_of_mem _ hr) a ha'
      · simp only [List.mem_singleton] at ha'
        subst ha'
        intro hcon
        exact hnd.1 (hcon ▸ List.mem_map_of_mem (fun p => p.1) hr)

theorem chLookup_map_value (g : Channel → Channel) :
    ∀ (l : List (String × Channel)) (name : String),
      chLookup (l.map (fun p => (p.1, g p.2))) name = (chLookup l name).map g := by
  intro l
  induction l with
  | nil => intro name; rfl
  | cons p rest ih =>
    intro name
    by_cases hp : p.1 = name
    · simp [chLookup, hp]
    · simp [chLookup, hp, ih]

/-- C1: the claim states that after a successful `purge()` every channel
has `tail = 1` and both in-flight structures empty, hence `real_tail = 1`.
The code (`queue.rs` lines 233-237) clears only the `in_flight` map and
never touches `in_flight_heap`, so on the reachable state `purgeInputC1`
the purged channel keeps `in_flight_heap = [2]` and `real_tail = 2 ≠ 1`;
the checkpoint written at the end of `purge` even persists `tail = 2` for
the channel although the backend restarted ids at 1. -/
theorem C1_purge_leaves_in_flight_heap :
    ∃ q', Queue.purge purgeInputC1 = some q' ∧
      chLookup q'.channels "c" =
        some { last_touched := 2, tail := 1, in_flight := [], in_flight_heap := [2] } ∧
      Channel.real_tail
        { last_touched := 2, tail := 1, in_flight := [], in_flight_heap := [2] } = 2 ∧
      q'.disk = some { state := QueueState.Ready,
                       channels := [("c", { last_touched := 2, tail := 2 })] } := by
  exact ⟨_, rfl, rfl, rfl, rfl⟩

/-- C2: the claim states that `real_tail(channel) ≤ channel.tail` is
preserved by every queue operation, `purge` included.  On the reachable
state `purgeInputC2` (where the invariant holds: `real_tail = 2 ≤ 3`),
`purge` produces a channel with `tail = 1` but `real_tail = 2`, because
the stale `in_flight_heap` survives the purge; the invariant is violated
by `purge` while the spec presents it as unconditional. -/
theorem C2_purge_breaks_real_tail_invariant :
    (∃ c0, chLookup purgeInputC2.channels "d" = some c0 ∧ c0.real_tail ≤ c0.tail) ∧
    ∃ q', Queue.purge purgeInputC2 = some q' ∧
      ∃ c, chLookup q'.channels "d" = some c ∧ c.tail < c.real_tail := by
  exact ⟨⟨_, rfl, by decide⟩, _, rfl, _, rfl, by decide⟩

/-- C4 counterexample: the claim states that requesting `Purging →
Purging` aborts with a diagnostic, but `set_state` (`queue.rs` lines
120-122) returns early whenever the requested state equals the current
one, so the call is a silent no-op (`some`, not the aborting `none`). -/
theorem C4_self_transition_does_not_abort :
    set_state QueueState.Purging QueueState.Purging = some QueueState.Purging := rfl

/-- C4 amended: a requested transition equal to the current state is a
silent no-op (including `Purging → Purging` and `Deleting → Deleting`);
among the proper transitions exactly `Ready → Purging`, `Ready →
Deleting` and `Purging → Ready` are accepted, and every other one
(leaving `Deleting` for a different state, and `Purging → Deleting`)
aborts with a diagnostic. -/
theorem C4_set_state_characterization (s t : QueueState) :
    set_state s t =
      if s = t then some s
      else if s = QueueState.Ready ∨ (s = QueueState.Purging ∧ t = QueueState.Ready)
        then some t
      else none := by
  cases s <;> cases t <;> decide

/-- C9: `maintenance` computes `smallest_tail` as the minimum over all
channels of the `in_flight_heap` peek when the heap is non-empty and the
channel `tail` otherwise — i.e. the minimum of the channels' `real_tail`
values — defaults it to 0 when the queue has no channels, passes exactly
this value to `backend.gc`, and then writes a checkpoint of the post-gc
queue. -/
theorem C9_maintenance_gc_smallest (q : Queue) :
    (q.channels = [] → (Queue.maintenance q).backend.gcLog = 0 :: q.backend.gcLog) ∧
    (∀ s, minOfList (q.channels.map (fun p => p.2.real_tail)) = some s →
      (∃ p ∈ q.channels, p.2.real_tail = s) ∧
      (∀ p ∈ q.channels, s ≤ p.2.real_tail) ∧
      (Queue.maintenance q).backend.gcLog = s :: q.backend.gcLog) ∧
    Queue.maintenance q =
      Queue.checkpoint
        { q with backend :=
            q.backend.gc ((minOfList (q.channels.map (fun p => p.2.real_tail))).getD 0) }
        false := by
  have hmnt : Queue.maintenance q =
      Queue.checkpoint
        { q with backend :=
            q.backend.gc ((minOfList (q.channels.map (fun p => p.2.real_tail))).getD 0) }
        false := rfl
  refine ⟨?_, ?_, hmnt⟩
  · intro h
    rw [hmnt, h]
    rfl
  · intro s hs
    refine ⟨?_, ?_, ?_⟩
    · obtain ⟨p, hp, hps⟩ := List.mem_map.mp (minOfList_mem hs)
      exact ⟨p, hp, hps⟩
    · intro p hp
      exact minOfList_le hs _ (List.mem_map_of_mem _ hp)
    · rw [hmnt, hs]
      rfl

/-- C9 witness: on `c9q` (one channel, heap `[2, 3]`, tail 4) the computed
minimum is 2 and `maintenance` passes exactly 2 to `backend.gc`. -/
theorem C9_maintenance_gc_smallest_witness :
    minOfList (c9q.channels.map (fun p => p.2.real_tail)) = some 2 ∧
    (Queue.maintenance c9q).backend.gcLog = 2 :: c9q.backend.gcLog :=
  ⟨by decide, (((C9_maintenance_gc_smallest c9q).2.1) 2 (by decide)).2.2⟩

/-- C10: `get`, `ack` and `push` never consult the queue's `state` field:
running any of them on a queue whose state is replaced by an arbitrary `s`
(including `Deleting`, the state set by `delete()`) yields the same result
and the same channel/backend updates, the final state field apart.  In
particular none of the hot-path operations refuses service after
`delete`. -/
theorem C10_hot_paths_ignore_state (q : Queue) (s : QueueState) (name : String)
    (id : Nat) (message : List Nat) :
    Queue.get { q with state := s } name
      = (Queue.get q name).map (fun r => ({ r.1 with state := s }, r.2)) ∧
    Queue.ack { q with state := s } name id
      = ({ (Queue.ack q name id).1 with state := s }, (Queue.ack q name id).2) ∧
    Queue.push { q with state := s } message
      = ({ (Queue.push q message).1 with state := s }, (Queue.push q message).2) := by
  obtain ⟨ttl, b, chs, clk, st0, d⟩ := q
  refine ⟨?_, ?_, ?_⟩
  · cases hcl : chLookup chs name with
    | none => simp [Queue.get, hcl]
    | some c =>
      cases hif : c.in_flight with
      | nil =>
        cases hbg : b.get c.tail <;>
          simp [Queue.get, Queue.getFresh, hcl, hif, hbg]
      | cons p rest =>
        obtain ⟨id0, stf⟩ := p
        by_cases hexp : stf.expiration ≤ clk
        · cases hbg : b.get id0 <;>
            simp [Queue.get, hcl, hif, hexp, hbg]
        · cases hbg : b.get c.tail <;>
            simp [Queue.get, Queue.getFresh, hcl, hif, hexp, hbg]
  · cases hcl : chLookup chs name with
    | none => simp [Queue.ack, hcl]
    | some c => simp [Queue.ack, hcl]
  · rfl

/-- C5: on `get` for an existing channel whose oldest in-flight entry (the
head of the insertion-ordered map) has `expiration ≤ clock`, the entry's
expiration is reset to `clock + time_to_live`, its retry counter is
incremented by one, the entry is moved to the newest insertion-order
position (the back of the list), and the message reloaded from the backend
by that id is returned; the resulting state shows that exactly this one
entry is touched, so at most the oldest expired entry is redelivered per
call. -/
theorem C5_redelivery_resets_oldest_expired (q : Queue) (name : String) (c : Channel)
    (id : Nat) (st : InFlightState) (t : List (Nat × InFlightState))
    (hc : chLookup q.channels name = some c)
    (hf : c.in_flight = (id, st) :: t)
    (hexp : st.expiration ≤ q.clock)
    (hid1 : 1 ≤ id) (hid2 : id < q.backend.tailId) :
    Queue.get q name = some
      ({ q with
          channels := chUpdate q.channels name
            { c with
                last_touched := q.clock,
                in_flight := t ++
                  [(id, { expiration := q.clock + q.time_to_live, retry := st.retry + 1 })] } },
        some (Except.ok { id := id })) := by
  have hbg : q.backend.get id = some { id := id } := by
    unfold QueueBackend.get
    rw [if_pos ⟨hid1, hid2⟩]
  simp [Queue.get, hc, hf, hexp, hbg, lhmRemove]

/-- C5 witness: on `c5q` the channel `"a"` has oldest entry
`(4, {expiration 9, retry 1})` with `9 ≤ clock = 10`; `get` resets it to
`{expiration 17, retry 2}`, moves it to the back (after the younger entry
for id 5) and returns the backend message with id 4. -/
theorem C5_redelivery_resets_oldest_expired_witness :
    (9 : Nat) ≤ c5q.clock ∧
    Queue.get c5q "a" = some
      ({ c5q with
          channels := chUpdate c5q.channels "a"
            { last_touched := 10, tail := 6,
              in_flight := [(5, { expiration := 20, retry := 0 }),
                            (4, { expiration := 17, retry := 2 })],
              in_flight_heap := [4, 5] } },
        some (Except.ok { id := 4 })) :=
  ⟨by decide,
    C5_redelivery_resets_oldest_expired c5q "a"
      { last_touched := 3, tail := 6,
        in_flight := [(4, { expiration := 9, retry := 1 }), (5, { expiration := 20, retry := 0 })],
        in_flight_heap := [4, 5] }
      4 { expiration := 9, retry := 1 } [(5, { expiration := 20, retry := 0 })]
      rfl rfl (by decide) (by decide) (by decide)⟩

/-- C6: `get` returns the source's `None` (modelled `some (q, none)`)
exactly when the channel does not exist; for an existing channel whose
in-flight ids the backend can serve it always returns `Some`; and when no
entry is expired and the backend has no message at the cursor it returns
`Some(Err(pos))` with `pos` the channel's current tail, the channel's tail
being left unchanged (only `last_touched` is refreshed). -/
theorem C6_get_none_iff_no_channel (q : Queue) (name : String) :
    (chLookup q.channels name = none → Queue.get q name = some (q, none)) ∧
    (∀ c, chLookup q.channels name = some c →
      (∀ q', Queue.get q name ≠ some (q', none)) ∧
      ((∀ p ∈ c.in_flight, 1 ≤ p.1 ∧ p.1 < q.backend.tailId) →
        ∃ q' r, Queue.get q name = some (q', some r)) ∧
      ((∀ p ∈ c.in_flight, ¬ p.2.expiration ≤ q.clock) →
        q.backend.get c.tail = none →
        Queue.get q name = some
          ({ q with channels :=
              chUpdate q.channels name { c with last_touched := q.clock } },
            some (Except.error c.tail)))) := by
  constructor
  · intro h
    simp [Queue.get, h]
  · intro c hc
    refine ⟨?_, ?_, ?_⟩
    · intro q'
      cases hif : c.in_flight with
      | nil =>
        cases hbg : q.backend.get c.tail <;>
          simp [Queue.get, Queue.getFresh, hc, hif, hbg]
      | cons p rest =>
        obtain ⟨id0, st0⟩ := p
        by_cases hexp : st0.expiration ≤ q.clock
        · cases hbg : q.backend.get id0 <;>
            simp [Queue.get, hc, hif, hexp, hbg]
        · cases hbg : q.backend.get c.tail <;>
            simp [Queue.get, Queue.getFresh, hc, hif, hexp, hbg]
    · intro hin
      cases hif : c.in_flight with
      | nil =>
        cases hbg : q.backend.get c.tail with
        | some m =>
          exact ⟨_, _, by simp [Queue.get, Queue.getFresh, hc, hif, hbg]; exact ⟨rfl, rfl⟩⟩
        | none =>
          exact ⟨_, _, by simp [Queue.get, Queue.getFresh, hc, hif, hbg]; exact ⟨rfl, rfl⟩⟩
      | cons p rest =>
        obtain ⟨id0, st0⟩ := p
        by_cases hexp : st0.expiration ≤ q.clock
        · have hb : q.backend.get id0 = some { id := id0 } := by
            have hmem := hin (id0, st0) (by rw [hif]; exact List.mem_cons_self _ _)
            unfold QueueBackend.get
            rw [if_pos hmem]
          exact ⟨_, _, by simp [Queue.get, hc, hif, hexp, hb]; exact ⟨rfl, rfl⟩⟩
        · cases hbg : q.backend.get c.tail with
          | some m =>
            exact ⟨_, _, by simp [Queue.get, Queue.getFresh, hc, hif, hexp, hbg]; exact ⟨rfl, rfl⟩⟩
          | none =>
            exact ⟨_, _, by simp [Queue.get, Queue.getFresh, hc, hif, hexp, hbg]; exact ⟨rfl, rfl⟩⟩
    · intro hnoexp hbg
      cases hif : c.in_flight with
      | nil => simp [Queue.get, Queue.getFresh, hc, hif, hbg]
      | cons p rest =>
        obtain ⟨id0, st0⟩ := p
        have hexp : ¬ st0.expiration ≤ q.clock :=
          hnoexp (id0, st0) (by rw [hif]; exact List.mem_cons_self _ _)
        simp [Queue.get, Queue.getFresh, hc, hif, hexp, hbg]

/-- C6 witness: on `c6q` the channel `"y"` exists, has no in-flight
entries, and the backend has no message at the cursor 3, so `get` returns
`Some(Err(3))` with the tail unchanged. -/
theorem C6_get_none_iff_no_channel_witness :
    c6q.backend.get 3 = none ∧
    Queue.get c6q "y" = some
      ({ c6q with channels :=
          [("y", { last_touched := 1, tail := 3, in_flight := [], in_flight_heap := [] })] },
        some (Except.error 3)) :=
  ⟨by decide,
    ((C6_get_none_iff_no_channel c6q "y").2
        { last_touched := 0, tail := 3, in_flight := [], in_flight_heap := [] }
        rfl).2.2 (by decide) (by decide)⟩

/-- C3: for a queue in `Ready` state, `checkpoint` followed by `recover`
from the written checkpoint (on a reopened queue built around the
recovered backend `b`, per Queue::new with recover = true) yields a
channel table with exactly the original channel names, each recovered
channel carrying the original `last_touched`, a `tail` equal to the
pre-checkpoint `real_tail`, and empty in-flight structures — so the
recovered `real_tail` also equals the pre-checkpoint `real_tail`. -/
theorem C3_checkpoint_recover_round_trip (q : Queue) (b : QueueBackend) (full : Bool)
    (hready : q.state = QueueState.Ready)
    (hnd : (q.channels.map (fun p => p.1)).Nodup) :
    ((Queue.checkpoint q full).reopen b).channels
      = q.channels.map (fun p => (p.1, recoveredChannel p.2)) ∧
    (∀ name c, chLookup q.channels name = some c →
      chLookup ((Queue.checkpoint q full).reopen b).channels name
        = some (recoveredChannel c) ∧
      (recoveredChannel c).last_touched = c.last_touched ∧
      (recoveredChannel c).tail = c.real_tail ∧
      (recoveredChannel c).in_flight = [] ∧
      (recoveredChannel c).in_flight_heap = [] ∧
      (recoveredChannel c).real_tail = c.real_tail) := by
  obtain ⟨ttl, bk, chs, clk, st0, d⟩ := q
  have hst : st0 = QueueState.Ready := hready
  subst hst
  have hkeys : ((chs.map (fun p =>
      (p.1, ({ last_touched := p.2.last_touched, tail := p.2.real_tail } :
        ChannelCheckpoint)))).map (fun p => p.1)).Nodup := by
    rw [List.map_map]
    exact hnd
  have h1 : ((Queue.checkpoint ⟨ttl, bk, chs, clk, QueueState.Ready, d⟩ full).reopen b).channels
      = chs.map (fun p => (p.1, recoveredChannel p.2)) := by
    have hstep : ((Queue.checkpoint ⟨ttl, bk, chs, clk, QueueState.Ready, d⟩ full).reopen b).channels
        = (chs.map (fun p =>
            (p.1, ({ last_touched := p.2.last_touched, tail := p.2.real_tail } :
              ChannelCheckpoint)))).foldl
            (fun acc p => chInsert acc p.1 (channelOfCheckpoint p.2)) [] := rfl
    rw [hstep,
      foldl_chInsert_of_nodup channelOfCheckpoint _ [] hkeys
        (fun p _ a ha => absurd ha (List.not_mem_nil a)),
      List.nil_append, List.map_map]
    rfl
  refine ⟨h1, ?_⟩
  intro name c hcl
  refine ⟨?_, rfl, rfl, rfl, rfl, rfl⟩
  rw [h1, chLookup_map_value recoveredChannel chs name, hcl]
  rfl

/-- C3 witness: on `c3q` (one channel `"r"`, in-flight id 2, heap `[2,3]`,
tail 4, so `real_tail = 2`) the checkpoint/recover round trip reinstates
exactly `("r", recoveredChannel …)` — same `last_touched`, `tail = 2`,
empty in-flight. -/
theorem C3_checkpoint_recover_round_trip_witness :
    c3q.state = QueueState.Ready ∧
    (c3q.channels.map (fun p => p.1)).Nodup ∧
    ((Queue.checkpoint c3q true).reopen { tailId := 5, gcLog := [] }).channels
      = c3q.channels.map (fun p => (p.1, recoveredChannel p.2)) :=
  ⟨rfl, by decide,
    (C3_checkpoint_recover_round_trip c3q { tailId := 5, gcLog := [] } true rfl (by decide)).1⟩

/-- C7: `ack` on an unknown channel name returns `None`; on an existing
channel it returns `Some(removed)` where `removed` is exactly the presence
of `id` in the channel's `in_flight` map; and it is idempotent in effect:
after an `ack` that returned `Some(true)` for `id`, a second
`ack(channel, id)` returns `Some(false)` and leaves the queue and channel
state completely unchanged. -/
theorem C7_ack_idempotent (q : Queue) (name : String) (id : Nat) :
    (chLookup q.channels name = none → Queue.ack q name id = (q, none)) ∧
    (∀ c, chLookup q.channels name = some c →
      (Queue.ack q name id).2 = some (lhmContains c.in_flight id) ∧
      ((c.in_flight.map (fun p => p.1)).Nodup →
        ∀ q1, Queue.ack q name id = (q1, some true) →
          Queue.ack q1 name id = (q1, some false))) := by
  constructor
  · intro h
    simp [Queue.ack, h]
  · intro c hc
    constructor
    · simp [Queue.ack, hc]
    · intro hnd q1 hack
      simp only [Queue.ack, hc, Prod.mk.injEq, Option.some.injEq] at hack
      obtain ⟨hq1, hcontains⟩ := hack
      subst hq1
      have hc2 : chLookup
          (chUpdate q.channels name
            { c with
                last_touched := q.clock,
                in_flight := lhmRemove c.in_flight id,
                in_flight_heap := compactHeap (lhmRemove c.in_flight id) c.in_flight_heap })
          name
          = some
            { c with
                last_touched := q.clock,
                in_flight := lhmRemove c.in_flight id,
                in_flight_heap := compactHeap (lhmRemove c.in_flight id) c.in_flight_heap } :=
        chLookup_chUpdate_self hc
      have hcon2 : lhmContains (lhmRemove c.in_flight id) id = false :=
        lhmContains_remove_self hnd
      have hrm2 : lhmRemove (lhmRemove c.in_flight id) id = lhmRemove c.in_flight id :=
        lhmRemove_of_not_contains hcon2
      simp only [Queue.ack, hc2, hcon2, hrm2, compactHeap_idem]
      rw [chUpdate_eq_self hc2]

/-- C7 witness: on `c7q` the first `ack "k" 3` returns `Some(true)` and
produces `c7q1`; the second `ack "k" 3` on `c7q1` returns `Some(false)`
and returns `c7q1` unchanged. -/
theorem C7_ack_idempotent_witness :
    Queue.ack c7q "k" 3 = (c7q1, some true) ∧
    Queue.ack c7q1 "k" 3 = (c7q1, some false) :=
  ⟨by decide,
    ((C7_ack_idempotent c7q "k" 3).2
        { last_touched := 0, tail := 4,
          in_flight := [(3, { expiration := 5, retry := 0 })], in_flight_heap := [3] }
        rfl).2 (by decide) c7q1 (by decide)⟩

/-- Step lemma for C8: a live (unexpired) in-flight entry `(i, st)` of a
channel is never the message returned by `get`, and it survives the call
unchanged, with the channel invariant intact. -/
theorem get_preserves_live_lease {q : Queue} {name : String} {c : Channel}
    {i : Nat} {st : InFlightState}
    (hc : chLookup q.channels name = some c) (hinv : chanInv c)
    (hmem : (i, st) ∈ c.in_flight) (hcl : q.clock < st.expiration) :
    ∀ q' r, Queue.get q name = some (q', r) →
      r ≠ some (Except.ok { id := i }) ∧
      ∃ c', chLookup q'.channels name = some c' ∧ chanInv c' ∧ (i, st) ∈ c'.in_flight := by
  intro q' r hget
  obtain ⟨hnd0, hbound0⟩ := hinv
  cases hif : c.in_flight with
  | nil =>
    rw [hif] at hmem
    cases hmem
  | cons p rest =>
    obtain ⟨id0, st0⟩ := p
    rw [hif] at hmem hnd0 hbound0
    simp only [List.map_cons, List.nodup_cons] at hnd0
    have hid0lt : id0 < c.tail := hbound0 (id0, st0) (List.mem_cons_self _ _)
    have hilt : i < c.tail := hbound0 (i, st) hmem
    by_cases hexp : st0.expiration ≤ q.clock
    · -- redelivery of the (expired) front entry, which cannot be (i, st)
      have hne : id0 ≠ i := by
        intro he
        subst he
        rcases List.mem_cons.mp hmem with hhd | htl
        · cases hhd
          exact absurd hexp (Nat.not_le.mpr hcl)
        · exact hnd0.1 (List.mem_map_of_mem (fun p => p.1) htl)
      cases hbg : q.backend.get id0 with
      | none =>
        simp [Queue.get, hc, hif, hexp, hbg] at hget
      | some m =>
        have hm : m = { id := id0 } := by
          simp only [QueueBackend.get] at hbg
          split at hbg
          · exact (Option.some.inj hbg).symm
          · cases hbg
        subst hm
        have hres : Queue.get q name = some
            ({ q with
                channels := chUpdate q.channels name
                  { c with
                    last_touched := q.clock,
                    in_flight := rest ++
                      [(id0, { expiration := q.clock + q.time_to_live,
                               retry := st0.retry + 1 })] } },
              some (Except.ok { id := id0 })) := by
          simp [Queue.get, hc, hif, hexp, hbg, lhmRemove]
        rw [hres] at hget
        simp only [Option.some.injEq, Prod.mk.injEq] at hget
        obtain ⟨hq', hr⟩ := hget
        subst hq'
        subst hr
        constructor
        · intro hcon
          simp only [Option.some.injEq, Except.ok.injEq, Message.mk.injEq] at hcon
          exact hne hcon
        · refine ⟨_, chLookup_chUpdate_self hc, ⟨?_, ?_⟩, ?_⟩
          · simp only [List.map_append, List.map_cons, List.map_nil]
            refine List.Nodup.append hnd0.2 (List.nodup_singleton _) ?_
            intro a ha hb
            rw [List.mem_singleton] at hb
            subst hb
            exact hnd0.1 ha
          · intro p hp
            rcases List.mem_append.mp hp with hp' | hp'
            · exact hbound0 p (List.mem_cons_of_mem _ hp')
            · rw [List.mem_singleton] at hp'
              subst hp'
              exact hid0lt
          · rcases List.mem_cons.mp hmem with hhd | htl
            · exact absurd (congrArg Prod.fst hhd) (Ne.symm hne)
            · exact List.mem_append_left _ htl
    · -- front not expired: fresh path
      cases hbg : q.backend.get c.tail with
      | some m =>
        have hm : m = { id := c.tail } := by
          simp only [QueueBackend.get] at hbg
          split at hbg
          · exact (Option.some.inj hbg).symm
          · cases hbg
        subst hm
        have hres : Queue.get q name = some
            ({ q with
                channels := chUpdate q.channels name
                  { c with
                    last_touched := q.clock,
                    in_flight := (id0, st0) :: (rest ++
                      [(c.tail, { expiration := q.clock + q.time_to_live, retry := 0 })]),
                    in_flight_heap := c.tail :: c.in_flight_heap,
                    tail := c.tail + 1 } },
              some (Except.ok { id := c.tail })) := by
          simp [Queue.get, Queue.getFresh, hc, hif, hexp, hbg]
        rw [hres] at hget
        simp only [Option.some.injEq, Prod.mk.injEq] at hget
        obtain ⟨hq', hr⟩ := hget
        subst hq'
        subst hr
        constructor
        · intro hcon
          simp only [Option.some.injEq, Except.ok.injEq, Message.mk.injEq] at hcon
          exact absurd hcon (Nat.ne_of_gt hilt)
        · refine ⟨_, chLookup_chUpdate_self hc, ⟨?_, ?_⟩, ?_⟩
          · simp only [List.map_cons, List.map_append, List.map_nil, List.nodup_cons]
            constructor
            · intro hcon
              rcases List.mem_append.mp hcon with h' | h'
              · exact hnd0.1 h'
              · rw [List.mem_singleton] at h'
                rw [h'] at hid0lt
                exact absurd hid0lt (lt_irrefl _)
            · refine List.Nodup.append hnd0.2 (List.nodup_singleton _) ?_
              intro a ha hb
              rw [List.mem_singleton] at hb
              subst hb
              obtain ⟨p, hp, hpa⟩ := List.mem_map.mp ha
              have hlt := hbound0 p (List.mem_cons_of_mem _ hp)
              rw [hpa] at hlt
              exact absurd hlt (lt_irrefl _)
          · intro p hp
            rcases List.mem_cons.mp hp with rfl | hp'
            · exact Nat.lt_succ_of_lt hid0lt
            rcases List.mem_append.mp hp' with h' | h'
            · exact Nat.lt_succ_of_lt (hbound0 p (List.mem_cons_of_mem _ h'))
            · rw [List.mem_singleton] at h'
              subst h'
              exact Nat.lt_succ_self _
          · rcases List.mem_cons.mp hmem with hhd | htl
            · exact List.mem_cons.mpr (Or.inl hhd)
            · exact List.mem_cons_of_mem _ (List.mem_append_left _ htl)
      | none =>
        have hres : Queue.get q name = some
            ({ q with
                channels := chUpdate q.channels name
                  { c with last_touched := q.clock } },
              some (Except.error c.tail)) := by
          simp [Queue.get, Queue.getFresh, hc, hif, hexp, hbg]
        rw [hres] at hget
        simp only [Option.some.injEq, Prod.mk.injEq] at hget
        obtain ⟨hq', hr⟩ := hget
        subst hq'
        subst hr
        refine ⟨by simp, _, chLookup_chUpdate_self hc, ⟨?_, ?_⟩, ?_⟩
        · rw [hif]
          simp only [List.map_cons, List.nodup_cons]
          exact hnd0
        · rw [hif]
          exact hbound0
        · rw [hif]
          exact hmem

/-- Lease-creation lemma for C8: when `get` returns `Ok(m)`, the post
state holds an in-flight entry for `m.id` whose expiration is exactly
`clock + time_to_live`, and the channel invariant is preserved. -/
theorem get_ok_creates_lease {q : Queue} {name : String} {c : Channel} {q1 : Queue}
    {m : Message}
    (hc : chLookup q.channels name = some c) (hinv : chanInv c)
    (hget : Queue.get q name = some (q1, some (Except.ok m))) :
    ∃ c1 rt, chLookup q1.channels name = some c1 ∧ chanInv c1 ∧
      (m.id, { expiration := q.clock + q.time_to_live, retry := rt }) ∈ c1.in_flight := by
  obtain ⟨hnd0, hbound0⟩ := hinv
  cases hif : c.in_flight with
  | nil =>
    rw [hif] at hnd0 hbound0
    cases hbg : q.backend.get c.tail with
    | none => simp [Queue.get, Queue.getFresh, hc, hif, hbg] at hget
    | some mm =>
      have hm : mm = { id := c.tail } := by
        simp only [QueueBackend.get] at hbg
        split at hbg
        · exact (Option.some.inj hbg).symm
        · cases hbg
      subst hm
      have hres : Queue.get q name = some
          ({ q with
              channels := chUpdate q.channels name
                { c with
                  last_touched := q.clock,
                  in_flight := [(c.tail, { expiration := q.clock + q.time_to_live, retry := 0 })],
                  in_flight_heap := c.tail :: c.in_flight_heap,
                  tail := c.tail + 1 } },
            some (Except.ok { id := c.tail })) := by
        simp [Queue.get, Queue.getFresh, hc, hif, hbg]
      rw [hres] at hget
      simp only [Option.some.injEq, Prod.mk.injEq] at hget
      obtain ⟨hq1, hr⟩ := hget
      subst hq1
      have hmid : m = ({ id := c.tail } : Message) := (Except.ok.inj hr).symm
      subst hmid
      refine ⟨_, 0, chLookup_chUpdate_self hc, ⟨?_, ?_⟩, ?_⟩
      · simp
      · intro p hp
        rw [List.mem_singleton] at hp
        subst hp
        exact Nat.lt_succ_self _
      · exact List.mem_singleton.mpr rfl
  | cons p rest =>
    obtain ⟨id0, st0⟩ := p
    rw [hif] at hnd0 hbound0
    simp only [List.map_cons, List.nodup_cons] at hnd0
    have hid0lt : id0 < c.tail := hbound0 (id0, st0) (List.mem_cons_self _ _)
    by_cases hexp : st0.expiration ≤ q.clock
    · cases hbg : q.backend.get id0 with
      | none => simp [Queue.get, hc, hif, hexp, hbg] at hget
      | some mm =>
        have hm : mm = { id := id0 } := by
          simp only [QueueBackend.get] at hbg
          split at hbg
          · exact (Option.some.inj hbg).symm
          · cases hbg
        subst hm
        have hres : Queue.get q name = some
            ({ q with
                channels := chUpdate q.channels name
                  { c with
                    last_touched := q.clock,
                    in_flight := rest ++
                      [(id0, { expiration := q.clock + q.time_to_live,
                               retry := st0.retry + 1 })] } },
              some (Except.ok { id := id0 })) := by
          simp [Queue.get, hc, hif, hexp, hbg, lhmRemove]
        rw [hres] at hget
        simp only [Option.some.injEq, Prod.mk.injEq] at hget
        obtain ⟨hq1, hr⟩ := hget
        subst hq1
        have hmid : m = ({ id := id0 } : Message) := (Except.ok.inj hr).symm
        subst hmid
        refine ⟨_, st0.retry + 1, chLookup_chUpdate_self hc, ⟨?_, ?_⟩, ?_⟩
        · simp only [List.map_append, List.map_cons, List.map_nil]
          refine List.Nodup.append hnd0.2 (List.nodup_singleton _) ?_
          intro a ha hb
          rw [List.mem_singleton] at hb
          subst hb
          exact hnd0.1 ha
        · intro p hp
          rcases List.mem_append.mp hp with hp' | hp'
          · exact hbound0 p (List.mem_cons_of_mem _ hp')
          · rw [List.mem_singleton] at hp'
            subst hp'
            exact hid0lt
        · exact List.mem_append_right _ (List.mem_singleton.mpr rfl)
    · cases hbg : q.backend.get c.tail with
      | none => simp [Queue.get, Queue.getFresh, hc, hif, hexp, hbg] at hget
      | some mm =>
        have hm : mm = { id := c.tail } := by
          simp only [QueueBackend.get] at hbg
          split at hbg
          · exact (Option.some.inj hbg).symm
          · cases hbg
        subst hm
        have hres : Queue.get q name = some
            ({ q with
                channels := chUpdate q.channels name
                  { c with
                    last_touched := q.clock,
                    in_flight := (id0, st0) :: (rest ++
                      [(c.tail, { expiration := q.clock + q.time_to_live, retry := 0 })]),
                    in_flight_heap := c.tail :: c.in_flight_heap,
                    tail := c.tail + 1 } },
              some (Except.ok { id := c.tail })) := by
          simp [Queue.get, Queue.getFresh, hc, hif, hexp, hbg]
        rw [hres] at hget
        simp only [Option.some.injEq, Prod.mk.injEq] at hget
        obtain ⟨hq1, hr⟩ := hget
        subst hq1
        have hmid : m = ({ id := c.tail } : Message) := (Except.ok.inj hr).symm
        subst hmid
        refine ⟨_, 0, chLookup_chUpdate_self hc, ⟨?_, ?_⟩, ?_⟩
        · simp only [List.map_cons, List.map_append, List.map_nil, List.nodup_cons]
          constructor
          · intro hcon
            rcases List.mem_append.mp hcon with h' | h'
            · exact hnd0.1 h'
            · rw [List.mem_singleton] at h'
              rw [h'] at hid0lt
              exact absurd hid0lt (lt_irrefl _)
          · refine List.Nodup.append hnd0.2 (List.nodup_singleton _) ?_
            intro a ha hb
            rw [List.mem_singleton] at hb
            subst hb
            obtain ⟨p, hp, hpa⟩ := List.mem_map.mp ha
            have hlt := hbound0 p (List.mem_cons_of_mem _ hp)
            rw [hpa] at hlt
            exact absurd hlt (lt_irrefl _)
        · intro p hp
          rcases List.mem_cons.mp hp with rfl | hp'
          · exact Nat.lt_succ_of_lt hid0lt
          rcases List.mem_append.mp hp' with h' | h'
          · exact Nat.lt_succ_of_lt (hbound0 p (List.mem_cons_of_mem _ h'))
          · rw [List.mem_singleton] at h'
            subst h'
            exact Nat.lt_succ_self _
        · exact List.mem_cons_of_mem _ (List.mem_append_right _ (List.mem_singleton.mpr rfl))

/-- Loop lemma for C8: as long as every `get` in the run happens at a
clock strictly before the lease expiration `E`, none of the calls returns
the leased id `i`. -/
theorem runGets_never_returns_live (name : String) (i E : Nat) :
    ∀ (clocks : List Nat) (q : Queue),
      (∃ c rt, chLookup q.channels name = some c ∧ chanInv c ∧
        (i, { expiration := E, retry := rt }) ∈ c.in_flight) →
      (∀ t ∈ clocks, t < E) →
      some (some (Except.ok { id := i })) ∉ runGets name q clocks := by
  intro clocks
  induction clocks with
  | nil =>
    intro q _ _ hin
    simp [runGets] at hin
  | cons t ts ih =>
    intro q hlease hts hin
    obtain ⟨c, rt, hc, hinv, hmem⟩ := hlease
    have hc' : chLookup ({ q with clock := t } : Queue).channels name = some c := hc
    have hcl : ({ q with clock := t } : Queue).clock
        < ({ expiration := E, retry := rt } : InFlightState).expiration :=
      hts t (List.mem_cons_self _ _)
    cases hg : Queue.get { q with clock := t } name with
    | none =>
      simp only [runGets, hg] at hin
      simp at hin
    | some pr =>
      obtain ⟨q', r⟩ := pr
      have hstep := get_preserves_live_lease hc' hinv hmem hcl q' r hg
      simp only [runGets, hg] at hin
      rcases List.mem_cons.mp hin with h1 | h2
      · exact hstep.1 (Option.some.inj h1).symm
      · obtain ⟨c', hc'2, hinv', hmem'⟩ := hstep.2
        exact ih q' ⟨c', rt, hc'2, hinv', hmem'⟩
          (fun t' ht' => hts t' (List.mem_cons_of_mem _ ht')) h2

/-- C8: if `get` on a channel (satisfying the in-flight invariant) returns
the message with id `m.id` at clock `t = q.clock`, then a run of
subsequent `get` calls on the same channel, each executed at a clock value
strictly below `t + time_to_live`, never returns that id again — neither
through the redelivery path nor through the fresh path.  (This is
unconditional: even intervening redeliveries of earlier expired entries
cannot surface `m.id` before its lease expires.) -/
theorem C8_lease_exclusivity_within_ttl (q : Queue) (name : String) (c : Channel)
    (q1 : Queue) (m : Message) (clocks : List Nat)
    (hc : chLookup q.channels name = some c) (hinv : chanInv c)
    (hget : Queue.get q name = some (q1, some (Except.ok m)))
    (hclocks : ∀ t ∈ clocks, t < q.clock + q.time_to_live) :
    some (some (Except.ok m)) ∉ runGets name q1 clocks := by
  obtain ⟨c1, rt, h1, h2, h3⟩ := get_ok_creates_lease hc hinv hget
  exact runGets_never_returns_live name m.id (q.clock + q.time_to_live) clocks q1
    ⟨c1, rt, h1, h2, h3⟩ hclocks

/-- C8 witness: on `c8q` (channel `"ch"`, ttl 10, clock 5) `get` redelivers
id 1 with a lease expiring at 15; the subsequent gets at clocks 6 and 14
(both < 15) lease id 3 and then report `Err(4)`, never id 1. -/
theorem C8_lease_exclusivity_within_ttl_witness :
    Queue.get c8q "ch" = some (c8q1, some (Except.ok { id := 1 })) ∧
    (∀ t ∈ [6, 14], t < c8q.clock + c8q.time_to_live) ∧
    some (some (Except.ok ({ id := 1 } : Message))) ∉ runGets "ch" c8q1 [6, 14] :=
  ⟨by decide, by decide,
    C8_lease_exclusivity_within_ttl c8q "ch"
      { last_touched := 0, tail := 3,
        in_flight := [(1, { expiration := 2, retry := 0 })], in_flight_heap := [1] }
      c8q1 { id := 1 } [6, 14] rfl (by decide) (by decide) (by decide)⟩

end Floki
